import Mathlib

/-!
# Verification of the rusty-markov core

A shallow embedding of the rusty-markov repository: the tokenizer with
boundary semantics (`src/tokenize.rs`), the transition-count model
(`src/transitions.rs`, `src/train.rs`), the iterator-shaped generator
(`src/generator.rs`) and the older babble generation loop (`src/babble.rs`).

Rust `String`s are modelled as `List Char`; the Rust `String::len` method
returns the UTF-8 *byte* length, modelled by `utf8Len` below, while
`chars()` iterates over characters — the source mixes the two, and the
embedding reproduces that faithfully.
-/

namespace RustyMarkov

/-- The `Token` enum of `src/token.rs` (the variant carrying a payload is
called `Token::Token` there and `Token::Boundary` where `src/tokenize.rs`
and `src/train.rs` build it; the payload is the word text). -/
inductive Token where
  | word : List Char → Token
  | boundary : Token
deriving DecidableEq, Repr

/-- The `BoundaryConfigs` enum of `src/lib.rs`. -/
inductive BoundaryConfigs where
  | lineEndings
  | sentenceEndings
deriving DecidableEq, Repr

/-- Rust `String::len`: the UTF-8 byte length of the character list. -/
def utf8Len (s : List Char) : Nat :=
  (s.map Char.utf8Size).sum

/-- `SENTENCE_ENDINGS` of `src/tokenize.rs`. -/
def SENTENCE_ENDINGS : List Char := ['.', '!', '?']

/-- The double-quote character, written via its code point. -/
def quoteChar : Char := Char.ofNat 34

/-- The single-quote character, written via its code point. -/
def aposChar : Char := Char.ofNat 39

/-- `PUNCTUATION_ENDINGS` of `src/tokenize.rs`. -/
def PUNCTUATION_ENDINGS : List Char :=
  ['.', '!', '?', ',', quoteChar, aposChar, '}', ')']

/-- `PUNCTUATION_BEGININGS` of `src/tokenize.rs`. -/
def PUNCTUATION_BEGININGS : List Char :=
  [quoteChar, aposChar, '{', '(']

/-- One token's replacement in `split_out_sentence_boundaries`
(`src/tokenize.rs` lines 29–59): a `Token::Token` whose last character is a
sentence ending becomes the text trimmed by `chars().take(value.len() - 1)`
— note `value.len()` is the byte length — (added only when the byte length
exceeds 1) followed by `Token::Boundary`; all other tokens are untouched. -/
def sentenceBoundarySplit (t : Token) : List Token :=
  match t with
  | Token.boundary => [t]
  | Token.word value =>
    match value.getLast? with
    | none => [t]
    | some lastChar =>
      if lastChar ∈ SENTENCE_ENDINGS then
        (if utf8Len value > 1 then [Token.word (value.take (utf8Len value - 1))] else [])
          ++ [Token.boundary]
      else [t]

/-- `split_out_sentence_boundaries` of `src/tokenize.rs`. The source
collects per-index replacements and applies them in reverse index order
(remove the original, insert its replacements at the same spot), which is
exactly an independent per-token expansion. -/
def split_out_sentence_boundaries (tokens : List Token) : List Token :=
  tokens.flatMap sentenceBoundarySplit

/-- One token's replacement in `split_out_punctuation_endings`
(`src/tokenize.rs` lines 64–92): a `Token::Token` whose last character is
in `PUNCTUATION_ENDINGS` becomes the text trimmed by
`chars().take(value.len() - 1)` (added only when the byte length exceeds 1)
followed by a one-character token holding the last character. -/
def punctuationEndingSplit (t : Token) : List Token :=
  match t with
  | Token.boundary => [t]
  | Token.word value =>
    match value.getLast? with
    | none => [t]
    | some lastChar =>
      if lastChar ∈ PUNCTUATION_ENDINGS then
        (if utf8Len value > 1 then [Token.word (value.take (utf8Len value - 1))] else [])
          ++ [Token.word [lastChar]]
      else [t]

/-- `split_out_punctuation_endings` of `src/tokenize.rs`. -/
def split_out_punctuation_endings (tokens : List Token) : List Token :=
  tokens.flatMap punctuationEndingSplit

/-- One token's replacement in `split_out_punctuation_beginings`
(`src/tokenize.rs` lines 97–126): a `Token::Token` whose first character is
in `PUNCTUATION_BEGININGS` becomes a one-character token holding that
character followed by the remaining characters (added only when the byte
length exceeds 1). -/
def punctuationBeginingSplit (t : Token) : List Token :=
  match t with
  | Token.boundary => [t]
  | Token.word value =>
    match value with
    | [] => [t]
    | firstChar :: rest =>
      if firstChar ∈ PUNCTUATION_BEGININGS then
        [Token.word [firstChar]] ++ (if utf8Len value > 1 then [Token.word rest] else [])
      else [t]

/-- `split_out_punctuation_beginings` of `src/tokenize.rs`. -/
def split_out_punctuation_beginings (tokens : List Token) : List Token :=
  tokens.flatMap punctuationBeginingSplit

/-- Helper for `split_whitespace`: walk the line, accumulating the current
non-whitespace run in reverse. -/
def splitWhitespaceAux : List Char → List Char → List (List Char)
  | [], acc => if acc = [] then [] else [acc.reverse]
  | c :: cs, acc =>
    if c.isWhitespace then
      (if acc = [] then [] else [acc.reverse]) ++ splitWhitespaceAux cs []
    else
      splitWhitespaceAux cs (c :: acc)

/-- Rust `str::split_whitespace`: the maximal non-whitespace runs of the
line, in order (whitespace here is `Char.isWhitespace`). -/
def split_whitespace (line : List Char) : List (List Char) :=
  splitWhitespaceAux line []

/-- `tokenize` of `src/tokenize.rs` lines 15–25: whitespace split, then
(under `SentenceEndings` only) the sentence-boundary pass, then the
trailing- and leading-punctuation passes. -/
def tokenize (line : List Char) (boundary_config : BoundaryConfigs) : List Token :=
  let tokens := (split_whitespace line).map Token.word
  let tokens :=
    match boundary_config with
    | BoundaryConfigs.sentenceEndings => split_out_sentence_boundaries tokens
    | BoundaryConfigs.lineEndings => tokens
  split_out_punctuation_beginings (split_out_punctuation_endings tokens)

example :
    tokenize "a man.".toList BoundaryConfigs.sentenceEndings =
      [Token.word ['a'], Token.word ['m', 'a', 'n'], Token.boundary] := by
  decide

example :
    tokenize "(Paren)".toList BoundaryConfigs.lineEndings =
      [Token.word ['('], Token.word ['P', 'a', 'r', 'e', 'n'], Token.word [')']] := by
  decide

example :
    tokenize ".".toList BoundaryConfigs.sentenceEndings = [Token.boundary] := by
  decide

/-! ## The transition-count model (`src/transitions.rs`, `src/train.rs`)

The `Transitions` struct wraps a `HashMap<Token, HashMap<Token, u32>>`;
we model it pointwise, as a function from source token to an optional
inner map, itself a function from destination token to an optional count.
`none` at either level is an absent hash-map entry. -/

/-- The `HashMap<Token, HashMap<Token, u32>>` inside `Transitions`. -/
def TransTable : Type := Token → Option (Token → Option Nat)

/-- `Transitions::new` (`src/transitions.rs` lines 47–51): the empty map. -/
def Transitions.new : TransTable := fun _ => none

/-- The modulus of the `u32` transition counts: arithmetic on them wraps
modulo `2 ^ 32`. -/
def u32Mod : Nat := 2 ^ 32

/-- `Transitions::count_transition` (`src/transitions.rs` lines 54–64):
`entry(last_token).or_insert_with(HashMap::new)` then
`entry(next_token).and_modify(+1).or_insert(1)`. The count is a `u32`, so
the `*p += 1` wraps modulo `2 ^ 32` (`or_insert(1)` stores `1`, which the
same reduction leaves unchanged). -/
def count_transition (m : TransTable) (last_token next_token : Token) : TransTable :=
  fun a =>
    if a = last_token then
      let inner : Token → Option Nat := (m last_token).getD (fun _ => none)
      some (fun b =>
        if b = next_token then some (((inner next_token).getD 0 + 1) % u32Mod)
        else inner b)
    else m a

/-- Looking up the stored count `table[a][b]`: `none` when either the
source key or the destination entry is absent. -/
def lookup2 (m : TransTable) (a b : Token) : Option Nat :=
  match m a with
  | none => none
  | some inner => inner b

/-- The pair-counting loop of `train_with_tokens` (`src/train.rs` lines
106–115): walk the remaining tokens, counting each adjacent pair except a
`Boundary`→`Boundary` one, which is specifically suppressed. -/
def trainTokensGo : Token → List Token → TransTable → TransTable
  | _, [], m => m
  | last_token, next_token :: rest, m =>
    let m' :=
      match last_token, next_token with
      | Token.boundary, Token.boundary => m
      | _, _ => count_transition m last_token next_token
    trainTokensGo next_token rest m'

/-- `train_with_tokens` (`src/train.rs` lines 94–118): take the first
token (returning the table unchanged when there is none) and fold the
counting loop over the rest. -/
def train_with_tokens (tokens : List Token) (transitions : TransTable) : TransTable :=
  match tokens with
  | [] => transitions
  | first :: rest => trainTokensGo first rest transitions

/-- A line read from the input stream: `ok` is a successfully read line,
`err` an I/O failure (`Err` branch of `src/train.rs` lines 49–52). -/
inductive LineRes where
  | ok : List Char → LineRes
  | err : LineRes

/-- The per-line loop of `train_with_stream` (`src/train.rs` lines 22–60):
prepend a `Boundary` (under `LineEndings`) or the carried `last_token`
(under `SentenceEndings`); on a successful read extend with the line's
tokens and, under `SentenceEndings`, save the final token as the carry;
append a `Boundary` under `LineEndings`; train on the assembled tokens. -/
def trainStreamGo (boundary_config : BoundaryConfigs) :
    List LineRes → TransTable → Token → TransTable
  | [], m, _ => m
  | line_res :: restLines, m, last_token =>
    let tokens0 : List Token :=
      match boundary_config with
      | BoundaryConfigs.lineEndings => [Token.boundary]
      | BoundaryConfigs.sentenceEndings => [last_token]
    let step : List Token × Token :=
      match line_res with
      | LineRes.ok line =>
        let tks := tokens0 ++ tokenize line boundary_config
        let lt :=
          match boundary_config with
          | BoundaryConfigs.sentenceEndings =>
            if tks.length > 0 then (tks.getLast?).getD Token.boundary else last_token
          | BoundaryConfigs.lineEndings => last_token
        (tks, lt)
      | LineRes.err => (tokens0, last_token)
    let tokens2 : List Token :=
      match boundary_config with
      | BoundaryConfigs.lineEndings => step.1 ++ [Token.boundary]
      | BoundaryConfigs.sentenceEndings => step.1
    trainStreamGo boundary_config restLines (train_with_tokens tokens2 m) step.2

/-- `train_with_stream` (`src/train.rs` lines 13–75): the carry starts as
`Token::Boundary`. -/
def train_with_stream (input : List LineRes) (transitions : TransTable)
    (boundary_config : BoundaryConfigs) : TransTable :=
  trainStreamGo boundary_config input transitions Token.boundary

example :
    lookup2 (train_with_tokens
      [Token.word ['a'], Token.word ['b'], Token.word ['a']] Transitions.new)
      (Token.word ['a']) (Token.word ['b']) = some 1 := by
  decide

/-! ## The String-keyed generator (`src/generator.rs`, `src/babble.rs`)

`MarkovGenerator` and `babble` work over `HashMap<String, HashMap<String,
u32>>`. We model the map as an association list (first match wins) and the
thread-local RNG as an oracle: each random decision consumes one natural
number, and theorems quantify over all oracle values. `WeightedIndex::new`
fails exactly on an empty weight list or an all-zero total, and
`Distribution::sample` returns an index of positive weight. -/

/-- A Rust `String`. -/
abbrev Str := List Char

/-- `HashMap<String, HashMap<String, u32>>` as an association list. -/
abbrev StrTable := List (Str × List (Str × Nat))

/-- Hash-map lookup on the association list. -/
def lookupStr (t : StrTable) (k : Str) : Option (List (Str × Nat)) :=
  match t with
  | [] => none
  | (k', v) :: rest => if k' = k then some v else lookupStr rest k

/-- The indices of positive weights: the only indices
`WeightedIndex::sample` can return. -/
def posIndices (counts : List Nat) : List Nat :=
  (List.range counts.length).filter (fun i => counts.getD i 0 > 0)

/-- `MarkovGenerator::pick_first_token` (`src/generator.rs` lines 47–52):
`keys().choose(&mut rng)` — `none` exactly when the table is empty,
otherwise a key selected by the oracle value `r`. -/
def pick_first_token (table : StrTable) (r : Nat) : Option Str :=
  let keys := table.map Prod.fst
  if keys = [] then none
  else some (keys.getD (r % keys.length) [])

/-- `MarkovGenerator::pick_next_token` (`src/generator.rs` lines 54–82):
look up the current token's outgoing counts (`none` on a dead end),
decompose into parallel weight/token vectors, return `none` when
`WeightedIndex::new` fails (empty weights or all-zero total), else sample
a positive-weight index with the oracle value `r`. -/
def pick_next_token (table : StrTable) (last_token : Str) (r : Nat) : Option Str :=
  match lookupStr table last_token with
  | none => none
  | some next_transition_counts =>
    let counts := next_transition_counts.map Prod.snd
    let tokens := next_transition_counts.map Prod.fst
    if counts = [] ∨ counts.sum = 0 then none
    else
      let pos := posIndices counts
      some (tokens.getD (pos.getD (r % pos.length) 0) [])

/-- One `Iterator::next` call on `MarkovGenerator` (`src/generator.rs`
lines 88–105): with no last token pick a first token, otherwise pick a
next token; the result becomes the new state and is returned. -/
def generatorNext (table : StrTable) (st : Option Str) (r : Nat) : Option Str :=
  match st with
  | none => pick_first_token table r
  | some last_token => pick_next_token table last_token r

/-- A bounded generation run (`generator.take(n).collect()`): one oracle
value per `next` call, stopping at the first `none`. -/
def genRun (table : StrTable) (st : Option Str) : List Nat → List Str
  | [] => []
  | r :: rs =>
    match generatorNext table st r with
    | none => []
    | some t => t :: genRun table (some t) rs

/-- The `for _ in 0..limit` loop of `generate_text` (`src/babble.rs` lines
40–56). The result is `none` when the `WeightedIndex::new(probs).unwrap()`
on line 50 panics — unlike the generator, this loop does not handle a
degenerate weight set. -/
def generateTextLoop (probability : StrTable) (rng : Nat → Nat) :
    Str → Nat → Nat → Option (List Str)
  | _, _, 0 => some []
  | last_token, i, fuel + 1 =>
    match lookupStr probability last_token with
    | none => some []
    | some next_token_probs =>
      let probs := next_token_probs.map Prod.snd
      let tokens := next_token_probs.map Prod.fst
      if probs = [] ∨ probs.sum = 0 then none
      else
        let pos := posIndices probs
        let next_token := tokens.getD (pos.getD (rng i % pos.length) 0) []
        match generateTextLoop probability rng next_token (i + 1) fuel with
        | none => none
        | some rest => some (next_token :: rest)

/-- `generate_text` (`src/babble.rs` lines 26–59): pick a uniformly random
key (empty output when the map is empty), push it, then run the loop up to
`limit` times. The oracle `rng` supplies one natural number per random
decision; `none` models the `unwrap` panic inside the loop. -/
def generate_text (probability : StrTable) (limit : Nat) (rng : Nat → Nat) :
    Option (List Str) :=
  let keys := probability.map Prod.fst
  if keys = [] then some []
  else
    let first := keys.getD (rng 0 % keys.length) []
    match generateTextLoop probability rng first 1 limit with
    | none => none
    | some rest => some (first :: rest)

example :
    genRun [(['a'], [(['b'], 1)])] none [0, 0, 0] = [['a'], ['b']] := by
  decide

example :
    generate_text [(['a'], [(['a'], 1)])] 1 (fun _ => 0) = some [['a'], ['a']] := by
  decide

example :
    generate_text [(['a'], [])] 1 (fun _ => 0) = none := by
  decide

/-! ## Counting adjacent pairs -/

/-- The adjacent pairs of a token sequence, in order. -/
def adjPairs : List Token → List (Token × Token)
  | a :: b :: rest => (a, b) :: adjPairs (b :: rest)
  | _ => []

/-- The adjacent pairs that the training loop counts: all of them except
a `Boundary`→`Boundary` adjacency. -/
def countedPairs (ts : List Token) : List (Token × Token) :=
  (adjPairs ts).filter (fun p => !(p.1 = Token.boundary && p.2 = Token.boundary))

/-- Adding `k` observations to a stored optional count, with the `u32`
wrap: adding zero leaves the entry alone (in particular absent), otherwise
the entry becomes the previous value (zero when absent) plus `k`, reduced
modulo `2 ^ 32`. -/
def addCount (o : Option Nat) : Nat → Option Nat
  | 0 => o
  | k + 1 => some ((o.getD 0 + (k + 1)) % u32Mod)

theorem addCount_addCount (o : Option Nat) (j k : Nat) :
    addCount (addCount o j) k = addCount o (j + k) := by
  cases j with
  | zero => simp [addCount]
  | succ j =>
    cases k with
    | zero => simp [addCount]
    | succ k =>
      simp only [addCount, Option.getD_some]
      rw [Nat.mod_add_mod]
      congr 1
      congr 1
      simp only [Nat.add_eq]
      omega

theorem lookup2_count_transition (m : TransTable) (x y a b : Token) :
    lookup2 (count_transition m x y) a b =
      if a = x ∧ b = y then some (((lookup2 m a b).getD 0 + 1) % u32Mod)
      else lookup2 m a b := by
  unfold lookup2 count_transition
  by_cases ha : a = x
  · subst ha
    by_cases hb : b = y
    · subst hb
      cases h : m a with
      | none => simp [h]
      | some inner => simp [h]
    · cases h : m a with
      | none => simp [h, hb]
      | some inner => simp [h, hb]
  · have hne : ¬(a = x ∧ b = y) := fun hc => ha hc.1
    simp [ha, hne]

theorem countedPairs_cons (last next : Token) (rest : List Token) :
    countedPairs (last :: next :: rest) =
      (if ¬(last = Token.boundary ∧ next = Token.boundary)
        then [(last, next)] else []) ++ countedPairs (next :: rest) := by
  by_cases h : last = Token.boundary ∧ next = Token.boundary
  · simp [countedPairs, adjPairs, List.filter_cons, h]
  · simp [countedPairs, adjPairs, List.filter_cons, h]

theorem lookup2_trainTokensGo (rest : List Token) :
    ∀ (last : Token) (m : TransTable) (a b : Token),
      lookup2 (trainTokensGo last rest m) a b =
        addCount (lookup2 m a b) ((countedPairs (last :: rest)).count (a, b)) := by
  induction rest with
  | nil =>
    intro last m a b
    simp [trainTokensGo, countedPairs, adjPairs, addCount]
  | cons next rest ih =>
    intro last m a b
    have hcount :
        (countedPairs (last :: next :: rest)).count (a, b) =
          (if ¬(last = Token.boundary ∧ next = Token.boundary) ∧ (last, next) = (a, b)
            then 1 else 0) + (countedPairs (next :: rest)).count (a, b) := by
      rw [countedPairs_cons, List.count_append]
      by_cases h : last = Token.boundary ∧ next = Token.boundary
      · simp [h]
      · by_cases heq : (last, next) = (a, b)
        · simp [h, heq, List.count_cons]
        · simp [h, heq, List.count_cons]
    rw [hcount]
    by_cases h : last = Token.boundary ∧ next = Token.boundary
    · have hgo : trainTokensGo last (next :: rest) m = trainTokensGo next rest m := by
        rcases h with ⟨h1, h2⟩
        subst h1; subst h2
        rfl
      rw [hgo, ih next m a b]
      simp [h]
    · have hgo :
          trainTokensGo last (next :: rest) m =
            trainTokensGo next rest (count_transition m last next) := by
        rcases last with _ | _ <;> rcases next with _ | _ <;>
          first
          | rfl
          | exact absurd ⟨rfl, rfl⟩ h
      rw [hgo, ih next (count_transition m last next) a b,
        lookup2_count_transition]
      by_cases heq : (last, next) = (a, b)
      · have ha : a = last := by cases heq; rfl
        have hb : b = next := by cases heq; rfl
        have : (a = last ∧ b = next) := ⟨ha, hb⟩
        simp only [if_pos this, h, heq, not_false_iff, true_and, if_pos]
        have h1 : (some (((lookup2 m a b).getD 0 + 1) % u32Mod)) =
            addCount (lookup2 m a b) 1 := by
          simp [addCount]
        rw [h1, addCount_addCount]
      · have hne : ¬(a = last ∧ b = next) := by
          intro hc
          exact heq (by rcases hc with ⟨h1, h2⟩; subst h1; subst h2; rfl)
        simp [hne, heq]

theorem lookup2_train_with_tokens_new (tokens : List Token) (a b : Token) :
    lookup2 (train_with_tokens tokens Transitions.new) a b =
      if (countedPairs tokens).count (a, b) = 0 then none
      else some ((countedPairs tokens).count (a, b) % u32Mod) := by
  cases tokens with
  | nil =>
    simp [train_with_tokens, lookup2, Transitions.new, countedPairs, adjPairs]
  | cons first rest =>
    show lookup2 (trainTokensGo first rest Transitions.new) a b = _
    rw [lookup2_trainTokensGo]
    have h0 : lookup2 Transitions.new a b = none := rfl
    rw [h0]
    cases h : (countedPairs (first :: rest)).count (a, b) with
    | zero => simp [addCount]
    | succ k => simp [addCount]

/-- C1 (amended): training an empty table on a finite token sequence
stores an entry `table[a][b]` if and only if `(a, b)` occurs as an
adjacent pair with `a` and `b` not both `Boundary` (the pairs collected by
`countedPairs`), and the stored `u32` count is the number of such adjacent
occurrences reduced modulo `2 ^ 32` — the exact count whenever fewer than
`2 ^ 32` occurrences were seen. -/
theorem train_with_tokens_counts_mod_u32 (tokens : List Token) (a b : Token) :
    lookup2 (train_with_tokens tokens Transitions.new) a b =
      if (countedPairs tokens).count (a, b) = 0 then none
      else some ((countedPairs tokens).count (a, b) % u32Mod) :=
  lookup2_train_with_tokens_new tokens a b

theorem adjPairs_replicate (a : Token) :
    ∀ n : Nat, adjPairs (List.replicate (n + 2) a) = List.replicate (n + 1) (a, a) := by
  intro n
  induction n with
  | zero => rfl
  | succ n ih =>
    have hrep : List.replicate (n + 1 + 2) a = a :: List.replicate (n + 2) a :=
      List.replicate_succ a (n + 2)
    have hrep2 : List.replicate (n + 2) a = a :: List.replicate (n + 1) a :=
      List.replicate_succ a (n + 1)
    rw [hrep, hrep2]
    show (a, a) :: adjPairs (a :: List.replicate (n + 1) a) = _
    rw [← hrep2, ih, ← List.replicate_succ]

theorem countedPairs_replicate_word (c : Char) (n : Nat) :
    (countedPairs (List.replicate (n + 2) (Token.word [c]))).count
      (Token.word [c], Token.word [c]) = n + 1 := by
  unfold countedPairs
  rw [adjPairs_replicate]
  rw [List.filter_replicate]
  simp

/-- C1 counterexample: on `2 ^ 32 + 2` copies of the word `a` — a sequence
with `2 ^ 32 + 1` adjacent `(a, a)` occurrences — the trained `u32` count
has wrapped to `1`, so the stored count does not equal the exact number of
adjacent occurrences. -/
theorem train_counts_overflow_cex :
    (countedPairs (List.replicate (2 ^ 32 + 2) (Token.word ['a']))).count
      (Token.word ['a'], Token.word ['a']) = 2 ^ 32 + 1 ∧
    lookup2 (train_with_tokens (List.replicate (2 ^ 32 + 2) (Token.word ['a']))
        Transitions.new) (Token.word ['a']) (Token.word ['a']) = some 1 ∧
    some (1 : Nat) ≠ some (2 ^ 32 + 1) := by
  have hcount := countedPairs_replicate_word 'a' (2 ^ 32)
  refine ⟨hcount, ?_, by decide⟩
  rw [lookup2_train_with_tokens_new, hcount]
  norm_num [u32Mod]

theorem lookup2_train_with_tokens_boundary (ts : List Token) (m : TransTable) :
    lookup2 (train_with_tokens ts m) Token.boundary Token.boundary =
      lookup2 m Token.boundary Token.boundary := by
  cases ts with
  | nil => rfl
  | cons first rest =>
    show lookup2 (trainTokensGo first rest m) _ _ = _
    rw [lookup2_trainTokensGo]
    have hz : (countedPairs (first :: rest)).count (Token.boundary, Token.boundary) = 0 := by
      rw [List.count_eq_zero]
      intro hmem
      have hp := List.of_mem_filter hmem
      simp at hp
    rw [hz]
    rfl

theorem trainStreamGo_boundary (cfg : BoundaryConfigs) (lines : List LineRes) :
    ∀ (m : TransTable) (lt : Token),
      lookup2 (trainStreamGo cfg lines m lt) Token.boundary Token.boundary =
        lookup2 m Token.boundary Token.boundary := by
  induction lines with
  | nil => intro m lt; rfl
  | cons line rest ih =>
    intro m lt
    show lookup2 (trainStreamGo cfg rest _ _) _ _ = _
    rw [ih, lookup2_train_with_tokens_boundary]

/-- C4: for every training input stream and either boundary config (in
particular inputs with consecutive blank lines under `LineEndings`), the
trained table contains no `(Boundary, Boundary)` entry. -/
theorem trained_table_no_boundary_boundary (input : List LineRes)
    (boundary_config : BoundaryConfigs) :
    lookup2 (train_with_stream input Transitions.new boundary_config)
      Token.boundary Token.boundary = none := by
  unfold train_with_stream
  rw [trainStreamGo_boundary]
  rfl

/-- A table whose stored count for `(a, b)` is `u32::MAX`, the state at
which the source's `*p += 1` wraps. -/
def saturatedTable : TransTable :=
  fun t =>
    if t = Token.word ['a'] then
      some (fun u => if u = Token.word ['b'] then some (u32Mod - 1) else none)
    else none

/-- C10 counterexample: at a stored count of `u32::MAX = 2 ^ 32 - 1` the
`u32` increment wraps to `0`, so `count_transition` does not increment the
entry `table[a][b]` by exactly 1 at this table state. -/
theorem count_transition_saturation_cex :
    lookup2 saturatedTable (Token.word ['a']) (Token.word ['b']) = some (2 ^ 32 - 1) ∧
    lookup2 (count_transition saturatedTable (Token.word ['a']) (Token.word ['b']))
        (Token.word ['a']) (Token.word ['b']) = some 0 ∧
    some (0 : Nat) ≠ some ((2 ^ 32 - 1) + 1) := by
  refine ⟨rfl, ?_, by decide⟩
  rw [lookup2_count_transition]
  norm_num [lookup2, saturatedTable, u32Mod]

/-- C10 (amended): `count_transition` changes exactly the entry
`table[last][next]` — updating it to the previous value plus one reduced
modulo `2 ^ 32` (the `u32` wrap; an increment by exactly 1 whenever the
stored count is below `u32::MAX`), inserting it at 1 when absent — and
leaves every other destination entry, and every other source key's whole
inner map, unchanged. -/
theorem count_transition_frame (m : TransTable) (a b a' b' : Token)
    (h : a' ≠ a ∨ b' ≠ b) :
    lookup2 (count_transition m a b) a b =
      some (((lookup2 m a b).getD 0 + 1) % u32Mod) ∧
    lookup2 (count_transition m a b) a' b' = lookup2 m a' b' ∧
    (a' ≠ a → count_transition m a b a' = m a') := by
  refine ⟨?_, ?_, ?_⟩
  · rw [lookup2_count_transition]
    simp
  · rw [lookup2_count_transition]
    have hne : ¬(a' = a ∧ b' = b) := by
      intro hc
      rcases h with h | h
      · exact h hc.1
      · exact h hc.2
    simp [hne]
  · intro hne
    unfold count_transition
    simp [hne]

/-- Witness for C10 at a concrete table and concrete tokens. -/
theorem count_transition_frame_witness :
    (Token.word ['c'] ≠ Token.word ['a'] ∨ Token.word ['b'] ≠ Token.word ['b']) ∧
    (lookup2 (count_transition Transitions.new (Token.word ['a']) (Token.word ['b']))
        (Token.word ['a']) (Token.word ['b']) =
      some (((lookup2 Transitions.new (Token.word ['a']) (Token.word ['b'])).getD 0 + 1)
        % u32Mod) ∧
    lookup2 (count_transition Transitions.new (Token.word ['a']) (Token.word ['b']))
        (Token.word ['c']) (Token.word ['b']) =
      lookup2 Transitions.new (Token.word ['c']) (Token.word ['b']) ∧
    (Token.word ['c'] ≠ Token.word ['a'] →
      count_transition Transitions.new (Token.word ['a']) (Token.word ['b'])
          (Token.word ['c']) =
        Transitions.new (Token.word ['c']))) :=
  ⟨by decide,
    count_transition_frame Transitions.new (Token.word ['a']) (Token.word ['b'])
      (Token.word ['c']) (Token.word ['b']) (by decide)⟩

/-- The table trained on the two lines of the carry-invariant test: line
one is the word `start`, line two is `middle end.`, under
`SentenceEndings`. -/
def carryExampleTable : TransTable :=
  train_with_stream
    [LineRes.ok "start".toList, LineRes.ok "middle end.".toList]
    Transitions.new BoundaryConfigs.sentenceEndings

/-- C6: training on the lines `start` and `middle end.` under
`SentenceEndings` records a `(start, middle)` transition (the carry
crosses the line break) and an `(end, Boundary)` transition, and records
no `(start, Boundary)` and no `(Boundary, middle)` transition. -/
theorem carry_invariant_sentence_endings :
    lookup2 carryExampleTable ("start".toList |> Token.word) ("middle".toList |> Token.word) =
      some 1 ∧
    lookup2 carryExampleTable ("end".toList |> Token.word) Token.boundary = some 1 ∧
    lookup2 carryExampleTable ("start".toList |> Token.word) Token.boundary = none ∧
    lookup2 carryExampleTable Token.boundary ("middle".toList |> Token.word) = none := by
  decide

/-- C2 (failing input): on the two-character token `é.` the
sentence-boundary pass keeps the trailing `.`, because the source trims
with `chars().take(value.len() - 1)` where `len()` is the UTF-8 byte
length (3 here), so all 2 characters survive the `take`. The claimed
output — the text minus its trailing character, then a boundary — would be
`[é, Boundary]`; the code instead produces `[é., Boundary]`. -/
theorem sentence_boundary_multibyte_divergence :
    split_out_sentence_boundaries [Token.word ['é', '.']] =
      [Token.word ['é', '.'], Token.boundary] ∧
    split_out_sentence_boundaries [Token.word ['é', '.']] ≠
      [Token.word ['é'], Token.boundary] := by
  decide

/-- The same pass removes the trailing sentence ending of a pure-ASCII
token, where byte length and character count agree. -/
theorem sentence_boundary_ascii_trims :
    split_out_sentence_boundaries [Token.word ['a', 'b', '.']] =
      [Token.word ['a', 'b'], Token.boundary] := by
  decide

/-- C7: generating from an untrained (empty) table returns
end-of-sequence on the first call — both for the iterator-shaped
`MarkovGenerator` (every bounded run is empty, and the very first `next`
call yields `none`) and for `generate_text`, which returns an empty output
without failing. -/
theorem empty_model_generation_safe :
    (∀ r : Nat, generatorNext [] none r = none) ∧
    (∀ rs : List Nat, genRun [] none rs = []) ∧
    (∀ (limit : Nat) (rng : Nat → Nat), generate_text [] limit rng = some []) := by
  refine ⟨fun r => rfl, fun rs => ?_, fun limit rng => rfl⟩
  cases rs with
  | nil => rfl
  | cons r rs => rfl

/-! ## Well-formedness of tokenizer output (C9) -/

/-- A well-formed tokenizer output token: a boundary, or a word whose text
is non-empty and contains no whitespace character. -/
def wordOk : Token → Bool
  | Token.boundary => true
  | Token.word s => !s.isEmpty && s.all (fun c => !c.isWhitespace)

theorem wordOk_word (s : List Char) (hne : s ≠ [])
    (hws : ∀ c ∈ s, c.isWhitespace = false) : wordOk (Token.word s) = true := by
  simp [wordOk, List.isEmpty_iff, hne, List.all_eq_true]
  intro c hc
  simp [hws c hc]

theorem splitWhitespaceAux_ok (l : List Char) :
    ∀ (acc : List Char), (∀ c ∈ acc, c.isWhitespace = false) →
      ∀ s ∈ splitWhitespaceAux l acc, s ≠ [] ∧ ∀ c ∈ s, c.isWhitespace = false := by
  induction l with
  | nil =>
    intro acc hacc s hs
    unfold splitWhitespaceAux at hs
    by_cases h : acc = []
    · simp [h] at hs
    · simp [h] at hs
      subst hs
      refine ⟨by simpa using h, ?_⟩
      intro c hc
      exact hacc c (List.mem_reverse.mp hc)
  | cons c cs ih =>
    intro acc hacc s hs
    unfold splitWhitespaceAux at hs
    by_cases hw : c.isWhitespace
    · rw [if_pos hw] at hs
      rcases List.mem_append.mp hs with hs1 | hs2
      · by_cases h : acc = []
        · simp [h] at hs1
        · simp [h] at hs1
          subst hs1
          refine ⟨by simpa using h, ?_⟩
          intro d hd
          exact hacc d (List.mem_reverse.mp hd)
      · exact ih [] (by intro d hd; cases hd) s hs2
    · rw [if_neg hw] at hs
      refine ih (c :: acc) ?_ s hs
      intro d hd
      rcases List.mem_cons.mp hd with rfl | hd
      · simpa using hw
      · exact hacc d hd

theorem split_whitespace_ok (line : List Char) :
    ∀ s ∈ split_whitespace line, s ≠ [] ∧ ∀ c ∈ s, c.isWhitespace = false :=
  splitWhitespaceAux_ok line [] (by intro c hc; cases hc)

/-- `utf8Len` of a non-empty list is positive. -/
theorem utf8Len_pos (s : List Char) (h : s ≠ []) : 0 < utf8Len s := by
  cases s with
  | nil => exact absurd rfl h
  | cons c cs =>
    have hc : 0 < c.utf8Size := Char.utf8Size_pos c
    simp [utf8Len]
    omega

theorem take_ne_nil_of_pos (s : List Char) (k : Nat) (hs : s ≠ []) (hk : 0 < k) :
    s.take k ≠ [] := by
  intro h
  rcases List.take_eq_nil_iff.mp h with h | h
  · omega
  · exact hs h

theorem sentenceBoundarySplit_ok (t : Token) (ht : wordOk t = true) :
    ∀ u ∈ sentenceBoundarySplit t, wordOk u = true := by
  intro u hu
  cases t with
  | boundary => simp [sentenceBoundarySplit] at hu; subst hu; exact ht
  | word value =>
    have hne : value ≠ [] := by
      intro h
      simp [wordOk, h, List.isEmpty] at ht
    have hws : ∀ c ∈ value, c.isWhitespace = false := by
      simp [wordOk, List.all_eq_true] at ht
      intro c hc
      simpa using ht.2 c hc
    cases hl : value.getLast? with
    | none =>
      simp only [sentenceBoundarySplit, hl] at hu
      simp at hu
      subst hu
      exact ht
    | some lastChar =>
      simp only [sentenceBoundarySplit, hl] at hu
      by_cases hmem : lastChar ∈ SENTENCE_ENDINGS
      · rw [if_pos hmem] at hu
        by_cases hlen : utf8Len value > 1
        · rw [if_pos hlen] at hu
          rcases List.mem_append.mp hu with hu | hu
          · rcases List.mem_singleton.mp hu with rfl
            refine wordOk_word _ ?_ ?_
            · exact take_ne_nil_of_pos value _ hne (by omega)
            · intro c hc
              exact hws c (List.take_subset _ _ hc)
          · rcases List.mem_singleton.mp hu with rfl
            rfl
        · rw [if_neg hlen] at hu
          rcases List.mem_singleton.mp (by simpa using hu) with rfl
          rfl
      · rw [if_neg hmem] at hu
        rcases List.mem_singleton.mp hu with rfl
        exact ht

theorem punctuationEndingSplit_ok (t : Token) (ht : wordOk t = true) :
    ∀ u ∈ punctuationEndingSplit t, wordOk u = true := by
  intro u hu
  cases t with
  | boundary => simp [punctuationEndingSplit] at hu; subst hu; exact ht
  | word value =>
    have hne : value ≠ [] := by
      intro h
      simp [wordOk, h, List.isEmpty] at ht
    have hws : ∀ c ∈ value, c.isWhitespace = false := by
      simp [wordOk, List.all_eq_true] at ht
      intro c hc
      simpa using ht.2 c hc
    cases hl : value.getLast? with
    | none =>
      simp only [punctuationEndingSplit, hl] at hu
      simp at hu
      subst hu
      exact ht
    | some lastChar =>
      simp only [punctuationEndingSplit, hl] at hu
      by_cases hmem : lastChar ∈ PUNCTUATION_ENDINGS
      · rw [if_pos hmem] at hu
        have hlast : lastChar ∈ value := List.mem_of_mem_getLast? hl
        by_cases hlen : utf8Len value > 1
        · rw [if_pos hlen] at hu
          rcases List.mem_append.mp hu with hu | hu
          · rcases List.mem_singleton.mp hu with rfl
            refine wordOk_word _ ?_ ?_
            · exact take_ne_nil_of_pos value _ hne (by omega)
            · intro c hc
              exact hws c (List.take_subset _ _ hc)
          · rcases List.mem_singleton.mp hu with rfl
            refine wordOk_word _ (by simp) ?_
            intro c hc
            rcases List.mem_singleton.mp hc with rfl
            exact hws _ hlast
        · rw [if_neg hlen] at hu
          rcases List.mem_singleton.mp (by simpa using hu) with rfl
          refine wordOk_word _ (by simp) ?_
          intro c hc
          rcases List.mem_singleton.mp hc with rfl
          exact hws _ hlast
      · rw [if_neg hmem] at hu
        rcases List.mem_singleton.mp hu with rfl
        exact ht

/-- Every character in `PUNCTUATION_BEGININGS` is a one-byte character. -/
theorem punctuation_beginings_utf8Size (c : Char) (h : c ∈ PUNCTUATION_BEGININGS) :
    c.utf8Size = 1 := by
  simp [PUNCTUATION_BEGININGS] at h
  rcases h with rfl | rfl | rfl | rfl <;> decide

theorem punctuationBeginingSplit_ok (t : Token) (ht : wordOk t = true) :
    ∀ u ∈ punctuationBeginingSplit t, wordOk u = true := by
  intro u hu
  cases t with
  | boundary => simp [punctuationBeginingSplit] at hu; subst hu; exact ht
  | word value =>
    have hws : ∀ c ∈ value, c.isWhitespace = false := by
      simp [wordOk, List.all_eq_true] at ht
      intro c hc
      simpa using ht.2 c hc
    cases value with
    | nil =>
      simp only [punctuationBeginingSplit] at hu
      simp at hu
      subst hu
      exact ht
    | cons firstChar rest =>
      simp only [punctuationBeginingSplit] at hu
      by_cases hmem : firstChar ∈ PUNCTUATION_BEGININGS
      · rw [if_pos hmem] at hu
        by_cases hlen : utf8Len (firstChar :: rest) > 1
        · rw [if_pos hlen] at hu
          rcases List.mem_append.mp hu with hu | hu
          · rcases List.mem_singleton.mp hu with rfl
            refine wordOk_word _ (by simp) ?_
            intro c hc
            rcases List.mem_singleton.mp hc with rfl
            exact hws _ (List.mem_cons_self _ _)
          · rcases List.mem_singleton.mp hu with rfl
            have hsz : firstChar.utf8Size = 1 := punctuation_beginings_utf8Size _ hmem
            have hrest : rest ≠ [] := by
              intro h
              subst h
              simp [utf8Len, hsz] at hlen
            refine wordOk_word _ hrest ?_
            intro c hc
            exact hws c (List.mem_cons_of_mem _ hc)
        · rw [if_neg hlen] at hu
          rcases List.mem_singleton.mp (by simpa using hu) with rfl
          refine wordOk_word _ (by simp) ?_
          intro c hc
          rcases List.mem_singleton.mp hc with rfl
          exact hws _ (List.mem_cons_self _ _)
      · rw [if_neg hmem] at hu
        rcases List.mem_singleton.mp hu with rfl
        exact ht

theorem flatMap_ok (f : Token → List Token)
    (hf : ∀ t, wordOk t = true → ∀ u ∈ f t, wordOk u = true)
    (ts : List Token) (hts : ∀ t ∈ ts, wordOk t = true) :
    ∀ u ∈ ts.flatMap f, wordOk u = true := by
  intro u hu
  rcases List.mem_flatMap.mp hu with ⟨t, ht, hu⟩
  exact hf t (hts t ht) u hu

/-- C9: every token produced by `tokenize`, for every input line and
either boundary config, is a `Boundary` or a `Word` whose text is
non-empty and free of whitespace characters. -/
theorem tokenize_tokens_wellformed (line : List Char) (boundary_config : BoundaryConfigs)
    (t : Token) (ht : t ∈ tokenize line boundary_config) : wordOk t = true := by
  have h0 : ∀ u ∈ (split_whitespace line).map Token.word, wordOk u = true := by
    intro u hu
    rcases List.mem_map.mp hu with ⟨s, hs, rfl⟩
    rcases split_whitespace_ok line s hs with ⟨hne, hws⟩
    exact wordOk_word s hne hws
  have h1 : ∀ u ∈ (match boundary_config with
      | BoundaryConfigs.sentenceEndings =>
        split_out_sentence_boundaries ((split_whitespace line).map Token.word)
      | BoundaryConfigs.lineEndings => (split_whitespace line).map Token.word),
      wordOk u = true := by
    cases boundary_config with
    | sentenceEndings => exact flatMap_ok _ sentenceBoundarySplit_ok _ h0
    | lineEndings => exact h0
  have h2 := flatMap_ok _ punctuationEndingSplit_ok _ h1
  have h3 := flatMap_ok _ punctuationBeginingSplit_ok _ h2
  exact h3 t ht

/-- Witness for C9 at a concrete line. -/
theorem tokenize_tokens_wellformed_witness :
    Token.word ['h', 'i'] ∈ tokenize "hi there.".toList BoundaryConfigs.sentenceEndings ∧
    wordOk (Token.word ['h', 'i']) = true :=
  ⟨by decide,
    tokenize_tokens_wellformed "hi there.".toList BoundaryConfigs.sentenceEndings
      (Token.word ['h', 'i']) (by decide)⟩

/-! ## Degenerate weighted-sampler construction (C3) -/

/-- The graceful half of the claim, which holds for
`MarkovGenerator::pick_next_token`: when the destination set looked up for
the current token is empty or all-zero, `WeightedIndex::new` fails and the
generator returns end-of-sequence instead of crashing. -/
theorem pick_next_token_degenerate_dead_end (table : StrTable) (last_token : Str)
    (r : Nat) (inner : List (Str × Nat))
    (h : lookupStr table last_token = some inner)
    (hdeg : inner.map Prod.snd = [] ∨ (inner.map Prod.snd).sum = 0) :
    pick_next_token table last_token r = none := by
  unfold pick_next_token
  rw [h]
  simp only [if_pos hdeg]

/-- Witness for the graceful half of C3 at a concrete table. -/
theorem pick_next_token_degenerate_witness :
    lookupStr [(['a'], [])] ['a'] = some [] ∧
    pick_next_token [(['a'], [])] ['a'] 0 = none :=
  ⟨by decide,
    pick_next_token_degenerate_dead_end [(['a'], [])] ['a'] 0 []
      (by decide) (Or.inl (by decide))⟩

/-- C3 counterexample: `babble::generate_text` does *not* treat the
degenerate construction as a dead end. On the table mapping the word `a`
to an empty destination set, the loop reaches
`WeightedIndex::new(probs).unwrap()` with an empty weight vector and
panics — modelled by the `none` result — instead of returning the
end-of-sequence output `some [a]` a graceful dead end would give. -/
theorem generate_text_degenerate_panics :
    generate_text [(['a'], [])] 1 (fun _ => 0) = none ∧
    generate_text [(['a'], [])] 1 (fun _ => 0) ≠ some [['a']] := by
  decide

/-! ## Generation run length (C8) -/

/-- C8 counterexample: with `limit = 1`, `generate_text` emits two tokens —
the initial random key pushed before the loop plus one sampled token —
exceeding the caller-supplied maximum. -/
theorem generate_text_exceeds_limit :
    generate_text [(['a'], [(['a'], 1)])] 1 (fun _ => 0) = some [['a'], ['a']] ∧
    ¬ ([['a'], ['a']] : List Str).length ≤ 1 := by
  decide

theorem generateTextLoop_length (probability : StrTable) (rng : Nat → Nat) :
    ∀ (fuel : Nat) (last_token : Str) (i : Nat) (out : List Str),
      generateTextLoop probability rng last_token i fuel = some out →
        out.length ≤ fuel := by
  intro fuel
  induction fuel with
  | zero =>
    intro last_token i out h
    simp only [generateTextLoop] at h
    cases h
    rfl
  | succ fuel ih =>
    intro last_token i out h
    cases hl : lookupStr probability last_token with
    | none =>
      simp only [generateTextLoop, hl] at h
      cases h
      simp
    | some next_token_probs =>
      simp only [generateTextLoop, hl] at h
      by_cases hdeg : next_token_probs.map Prod.snd = [] ∨
          (next_token_probs.map Prod.snd).sum = 0
      · rw [if_pos hdeg] at h
        cases h
      · rw [if_neg hdeg] at h
        cases hrec : generateTextLoop probability rng
            ((next_token_probs.map Prod.fst).getD
              ((posIndices (next_token_probs.map Prod.snd)).getD
                (rng i % (posIndices (next_token_probs.map Prod.snd)).length) 0) [])
            (i + 1) fuel with
        | none =>
          rw [hrec] at h
          cases h
        | some rest =>
          rw [hrec] at h
          cases h
          have := ih _ (i + 1) rest hrec
          simpa using Nat.succ_le_succ this

/-- C8 amended: a `generate_text` run that does not panic emits at most
`limit + 1` tokens — the initial uniformly chosen key plus at most `limit`
tokens from the bounded sampling loop. -/
theorem generate_text_length_le_succ_limit (probability : StrTable) (limit : Nat)
    (rng : Nat → Nat) (out : List Str)
    (h : generate_text probability limit rng = some out) :
    out.length ≤ limit + 1 := by
  unfold generate_text at h
  by_cases hk : probability.map Prod.fst = []
  · rw [if_pos hk] at h
    cases h
    simp
  · rw [if_neg hk] at h
    simp only [] at h
    generalize hfirst : (probability.map Prod.fst).getD
      (rng 0 % (probability.map Prod.fst).length) [] = first at h
    cases hrec : generateTextLoop probability rng first 1 limit with
    | none =>
      simp [hrec] at h
    | some rest =>
      simp [hrec] at h
      subst h
      have := generateTextLoop_length probability rng limit first 1 rest hrec
      simpa using Nat.succ_le_succ this

/-- Witness for the amended C8 at a concrete table and limit. -/
theorem generate_text_length_witness :
    generate_text [(['a'], [(['a'], 1)])] 1 (fun _ => 0) = some [['a'], ['a']] ∧
    ([['a'], ['a']] : List Str).length ≤ 1 + 1 :=
  ⟨by decide,
    generate_text_length_le_succ_limit [(['a'], [(['a'], 1)])] 1 (fun _ => 0)
      [['a'], ['a']] (by decide)⟩

/-! ## Dead-end generation (C5)

`MarkovGenerator::train` calls a String-keyed `train_with_stream` that is
not under src/ (only this caller, `main.rs`, and the generator's tests
are); the counting it performs is modelled from the spec below. -/

/-- Increment the count stored for `next` in an inner destination list,
inserting it at 1 when absent. -/
def bumpInner : List (Str × Nat) → Str → List (Str × Nat)
  | [], next => [(next, 1)]
  | (k, v) :: rest, next =>
    if k = next then (k, v + 1) :: rest else (k, v) :: bumpInner rest next

/-- Increment `table[last][next]`, inserting missing keys. -/
def bumpTable : StrTable → Str → Str → StrTable
  | [], last, next => [(last, [(next, 1)])]
  | (k, inner) :: rest, last, next =>
    if k = last then (k, bumpInner inner next) :: rest
    else (k, inner) :: bumpTable rest last next

/-- Fold of the counting rule over the adjacent pairs of a token stream. -/
def specTrainGo : Str → List Str → StrTable → StrTable
  | _, [], t => t
  | last, next :: rest, t => specTrainGo next rest (bumpTable t last next)

/-- Modelled from the spec: the String-keyed training behind
`MarkovGenerator::train` (its `train_with_stream` is absent from src/).
Section 4.2's counting rule increments `table[source][destination]` once
per adjacent pair of the token stream, and section 3 states a source key
is present only when an outgoing transition was observed from it. -/
def spec_train_pairs (tokens : List Str) : StrTable :=
  match tokens with
  | [] => []
  | first :: rest => specTrainGo first rest []

/-- The table trained on the single line `start deadend`. -/
def deadendTable : StrTable :=
  spec_train_pairs (split_whitespace "start deadend".toList)

/-- The same training with the final token also registered as a source
key with an empty distribution — the variant the generator's own dead-end
test implies, where the first random key may be the dead-end word. -/
def deadendTableRegistered : StrTable :=
  deadendTable ++ [("deadend".toList, [])]

theorem deadendTable_eval :
    deadendTable = [("start".toList, [("deadend".toList, 1)])] := by
  decide

theorem deadendTableRegistered_eval :
    deadendTableRegistered =
      [("start".toList, [("deadend".toList, 1)]), ("deadend".toList, [])] := by
  decide

theorem deadend_first (r : Nat) :
    pick_first_token deadendTable r = some "start".toList := by
  rw [deadendTable_eval]
  unfold pick_first_token
  simp [Nat.mod_one]

theorem deadend_next_start (r : Nat) :
    pick_next_token deadendTable "start".toList r = some "deadend".toList := by
  rw [deadendTable_eval]
  unfold pick_next_token
  have hpos : posIndices [1] = [0] := by decide
  simp [lookupStr, hpos, Nat.mod_one]

theorem deadend_next_dead (r : Nat) :
    pick_next_token deadendTable "deadend".toList r = none := by
  rfl

theorem deadend_run_from_dead (rs : List Nat) :
    genRun deadendTable (some "deadend".toList) rs = [] := by
  cases rs with
  | nil => rfl
  | cons r rs => rfl

theorem reg_first (r : Nat) :
    pick_first_token deadendTableRegistered r =
      some (if r % 2 = 0 then "start".toList else "deadend".toList) := by
  rw [deadendTableRegistered_eval]
  unfold pick_first_token
  rcases Nat.mod_two_eq_zero_or_one r with h | h <;> simp [h]

theorem reg_next_start (r : Nat) :
    pick_next_token deadendTableRegistered "start".toList r =
      some "deadend".toList := by
  rw [deadendTableRegistered_eval]
  unfold pick_next_token
  have hpos : posIndices [1] = [0] := by decide
  simp [lookupStr, hpos, Nat.mod_one]

theorem reg_next_dead (r : Nat) :
    pick_next_token deadendTableRegistered "deadend".toList r = none := by
  rfl

theorem reg_run_from_dead (rs : List Nat) :
    genRun deadendTableRegistered (some "deadend".toList) rs = [] := by
  cases rs with
  | nil => rfl
  | cons r rs => rfl

/-- C5: after training on `start deadend`, every generation run with a
budget of at least two `next` calls terminates after at most 2 emitted
tokens; a 2-token run is exactly `[start, deadend]` and a 1-token run is
exactly `[deadend]`. This holds both for the spec-modelled table and for
the registered-dead-end variant (where the 1-token case actually occurs). -/
theorem deadend_generation (rs : List Nat) (h : 2 ≤ rs.length) :
    ((genRun deadendTable none rs).length ≤ 2 ∧
     ((genRun deadendTable none rs).length = 2 →
       genRun deadendTable none rs = ["start".toList, "deadend".toList]) ∧
     ((genRun deadendTable none rs).length = 1 →
       genRun deadendTable none rs = ["deadend".toList])) ∧
    ((genRun deadendTableRegistered none rs).length ≤ 2 ∧
     ((genRun deadendTableRegistered none rs).length = 2 →
       genRun deadendTableRegistered none rs = ["start".toList, "deadend".toList]) ∧
     ((genRun deadendTableRegistered none rs).length = 1 →
       genRun deadendTableRegistered none rs = ["deadend".toList])) := by
  match rs, h with
  | r1 :: r2 :: rs, _ =>
    have hrun : genRun deadendTable none (r1 :: r2 :: rs) =
        ["start".toList, "deadend".toList] := by
      show (match generatorNext deadendTable none r1 with
        | none => []
        | some t => t :: genRun deadendTable (some t) (r2 :: rs)) = _
      rw [show generatorNext deadendTable none r1 = some "start".toList from
        deadend_first r1]
      show "start".toList :: (match pick_next_token deadendTable "start".toList r2 with
        | none => []
        | some t => t :: genRun deadendTable (some t) rs) = _
      rw [deadend_next_start r2]
      show _ :: _ :: genRun deadendTable (some "deadend".toList) rs = _
      rw [deadend_run_from_dead rs]
    refine ⟨⟨?_, ?_, ?_⟩, ?_⟩
    · rw [hrun]; simp
    · intro _; exact hrun
    · intro hlen; rw [hrun] at hlen; simp at hlen
    · rcases Nat.mod_two_eq_zero_or_one r1 with hr | hr
      · have hrun2 : genRun deadendTableRegistered none (r1 :: r2 :: rs) =
            ["start".toList, "deadend".toList] := by
          show (match generatorNext deadendTableRegistered none r1 with
            | none => []
            | some t => t :: genRun deadendTableRegistered (some t) (r2 :: rs)) = _
          rw [show generatorNext deadendTableRegistered none r1 =
              some "start".toList by
                rw [show generatorNext deadendTableRegistered none r1 =
                  pick_first_token deadendTableRegistered r1 from rfl, reg_first r1, hr]
                rfl]
          show "start".toList ::
            (match pick_next_token deadendTableRegistered "start".toList r2 with
              | none => []
              | some t => t :: genRun deadendTableRegistered (some t) rs) = _
          rw [reg_next_start r2]
          show _ :: _ :: genRun deadendTableRegistered (some "deadend".toList) rs = _
          rw [reg_run_from_dead rs]
        refine ⟨?_, ?_, ?_⟩
        · rw [hrun2]; simp
        · intro _; exact hrun2
        · intro hlen; rw [hrun2] at hlen; simp at hlen
      · have hrun2 : genRun deadendTableRegistered none (r1 :: r2 :: rs) =
            ["deadend".toList] := by
          show (match generatorNext deadendTableRegistered none r1 with
            | none => []
            | some t => t :: genRun deadendTableRegistered (some t) (r2 :: rs)) = _
          rw [show generatorNext deadendTableRegistered none r1 =
              some "deadend".toList by
                rw [show generatorNext deadendTableRegistered none r1 =
                  pick_first_token deadendTableRegistered r1 from rfl, reg_first r1, hr]
                rfl]
          show "deadend".toList ::
            genRun deadendTableRegistered (some "deadend".toList) (r2 :: rs) = _
          rw [reg_run_from_dead (r2 :: rs)]
        refine ⟨?_, ?_, ?_⟩
        · rw [hrun2]; simp
        · intro hlen; rw [hrun2] at hlen; simp at hlen
        · intro _; exact hrun2

/-- Witness for C5 at a concrete random stream of length 2. -/
theorem deadend_generation_witness :
    2 ≤ ([0, 0] : List Nat).length ∧
    genRun deadendTable none [0, 0] = ["start".toList, "deadend".toList] ∧
    (genRun deadendTable none [0, 0]).length ≤ 2 :=
  ⟨by decide, by decide, ((deadend_generation [0, 0] (by decide)).1).1⟩

end RustyMarkov
